import Mathlib

/-!
Shallow embedding of the frame-source pipeline of the RaspberryPi-WebRTC-Camera
repository.  Byte strings are modelled as `List Nat` (each element a byte value);
Python's `bytes.find` becomes `findSub`, built on the initial-segment test
`leadsWith`.

Embedded code:
* `extractFrames`, `feedChunks`  — the MJPEG marker framer of
  `src/server/camera.py`, `Camera.camera_reader` (lines 39-52): repeatedly find
  the start marker `FF D8`, then the first end marker `FF D9` at or after it,
  emit the inclusive slice and continue on the remainder; stop (retaining the
  whole buffer) when either marker is missing.
* `pushFrame`, `pushAll`  — the bounded frame queue handling of
  `Camera.camera_reader` (lines 60-68): non-blocking put; on Full, one
  `get_nowait` (evict the oldest) followed by the put.
* `CameraState`, `stop_camera`  — `Camera.stop_camera` (lines 144-168), with a
  ghost counter `terminations` recording how many subprocess terminations the
  calls have performed.
* `OfferParams`, `ServerConfig`, `HandlerState`, `resolveSettings`, `offer` —
  the await-free critical section of `WebRTCHandler.offer` in
  `src/server/webrtc_handler.py` (lines 96-148): parameter resolution with the
  latency-mode presets, the in-place config update, the create-or-reuse of the
  video track, and the restart branch guarded by a comparison against the
  just-updated config.  Ghost counters `starts`/`stops` record camera
  start/stop calls.  The float-valued tuning knobs (sharpness, contrast,
  saturation, brightness) are elided: they are floats and are never read by
  any control-flow decision relevant to the claims.
* `blackFrame`, `applyRotation`, `recv`  — `CameraVideoTrack.recv` of
  `src/server/webrtc_handler.py` (lines 31-74): the queue pop with timeout is
  modelled by an `Option Frame` argument (`none` = `queue.Empty` after the
  50 ms timeout); the success path applies the rotation map and the BGR→RGB
  conversion, the empty path builds `np.zeros((height, width, 3))`.
* `frame_size`, `readYuvFrame`  — `CameraVideoTrack._read_yuv_frame` of
  `src/webrtc_server.py` (lines 428-447) with `frame_size` from line 364; the
  stream is a list of successive read results, an exhausted list or an empty
  chunk is a read returning an empty byte string (the code then raises
  `EOFError`, modelled by `Except.error ()`).
* `MjpegState`, `mjpegStep`  — one iteration of the read loop of
  `_read_mjpeg_frame` in `src/enhanced_server.py` (lines 328-378): append the
  chunk, resync to the start marker if not yet found, return the frame on the
  end marker, and reset the buffer once it exceeds `max_frame_size` (1 MiB).
* `nalPhase1`, `nalPhase2`, `read_h264_nal_unit`  — `read_h264_nal_unit` of
  `src/multicore-gpu.py` (lines 192-222): the buffer is a local of each call,
  so the model threads only the not-yet-read chunks between calls; everything
  buffered beyond the returned unit is dropped.
-/

/-- Boolean test that `p` is an initial segment of `s` (the primitive under
byte-string `find`). -/
def leadsWith : List Nat → List Nat → Bool
  | [], _ => true
  | _ :: _, [] => false
  | a :: p, b :: s => a == b && leadsWith p s

/-- Index of the first occurrence of `p` as a contiguous sub-sequence of `s`;
`none` if there is none.  Models Python `bytes.find` (with `-1` as `none`). -/
def findSub (p : List Nat) : List Nat → Option Nat
  | [] => if leadsWith p [] then some 0 else none
  | b :: t => if leadsWith p (b :: t) then some 0 else (findSub p t).map (· + 1)

/-- Pattern `p` occurs in `s` at index `i`. -/
def occursAt (p s : List Nat) (i : Nat) : Prop :=
  leadsWith p (s.drop i) = true

instance (p s : List Nat) (i : Nat) : Decidable (occursAt p s i) :=
  inferInstanceAs (Decidable (_ = true))

/-- JPEG start-of-image marker `FF D8` (`src/server/camera.py` line 41). -/
def SOI : List Nat := [255, 216]

/-- JPEG end-of-image marker `FF D9` (`src/server/camera.py` line 46). -/
def EOI : List Nat := [255, 217]

/-- An initial segment is never longer than the whole. -/
theorem leadsWith_length : ∀ {p s : List Nat}, leadsWith p s = true → p.length ≤ s.length := by
  intro p
  induction p with
  | nil => intro s _; simp
  | cons a q ih =>
    intro s h
    cases s with
    | nil => simp [leadsWith] at h
    | cons b t =>
      simp only [leadsWith, Bool.and_eq_true, beq_iff_eq] at h
      have := ih h.2
      simp only [List.length_cons]
      omega

/-- Bound `i + p.length ≤ s.length` whenever `findSub p s = some i`. -/
theorem findSub_some_bound {p : List Nat} :
    ∀ {s : List Nat} {i : Nat}, findSub p s = some i → i + p.length ≤ s.length := by
  intro s
  induction s with
  | nil =>
    intro i h
    by_cases hp : leadsWith p [] = true
    · have hlen := leadsWith_length hp
      have hi : i = 0 := by simp [findSub, hp] at h; omega
      subst hi
      simpa using hlen
    · simp [findSub, hp] at h
  | cons b t ih =>
    intro i h
    by_cases hp : leadsWith p (b :: t) = true
    · have hi : i = 0 := by simp [findSub, hp] at h; omega
      subst hi
      simpa using leadsWith_length hp
    · rw [findSub, if_neg hp] at h
      cases hft : findSub p t with
      | none => rw [hft] at h; simp at h
      | some j =>
        rw [hft] at h
        simp only [Option.map_some'] at h
        have := ih hft
        have hij : j + 1 = i := by
          injection h with h'
        simp only [List.length_cons]
        omega

/-- The inner frame-extraction loop of `Camera.camera_reader`
(`src/server/camera.py` lines 39-52): returns the emitted JPEG units in order
and the remaining buffer. -/
def extractFrames (buffer : List Nat) : List (List Nat) × List Nat :=
  match h1 : findSub SOI buffer with
  | none => ([], buffer)
  | some s =>
    match findSub EOI (buffer.drop s) with
    | none => ([], buffer)
    | some k =>
      let res := extractFrames (buffer.drop (s + k + 2))
      ((buffer.drop s).take (k + 2) :: res.1, res.2)
termination_by buffer.length
decreasing_by
  have hb := findSub_some_bound h1
  simp only [List.length_drop]
  simp only [SOI, List.length_cons, List.length_nil] at hb
  omega

/-- The per-read feeding loop of `Camera.camera_reader`: append each read chunk
to the buffer and run the extraction loop (an empty read is skipped by the
`if not data: continue` guard on line 33). -/
def feedChunks (buf : List Nat) : List (List Nat) → List (List Nat) × List Nat
  | [] => ([], buf)
  | c :: cs =>
    if c.isEmpty then feedChunks buf cs
    else
      ((extractFrames (buf ++ c)).1 ++ (feedChunks (extractFrames (buf ++ c)).2 cs).1,
        (feedChunks (extractFrames (buf ++ c)).2 cs).2)

/-- A well-formed marker-delimited (JPEG) unit: at least the two markers long,
begins with the start marker `FF D8`, its first end marker `FF D9` is the final
two bytes, and all elements are byte values. -/
def WFJpeg (u : List Nat) : Prop :=
  4 ≤ u.length ∧ u.take 2 = SOI ∧ findSub EOI u = some (u.length - 2) ∧ ∀ b ∈ u, b < 256

instance (u : List Nat) : Decidable (WFJpeg u) :=
  inferInstanceAs (Decidable (_ ∧ _ ∧ _ ∧ _))

/-- One push into the bounded frame queue (`src/server/camera.py` lines 60-68):
`queue.Queue.put(block=False)`, and on `queue.Full` one `get_nowait` (dropping
the oldest entry, the list head) followed by the put. -/
def pushFrame {α : Type} (cap : Nat) (q : List α) (x : α) : List α :=
  if q.length < cap then q ++ [x] else q.drop 1 ++ [x]

/-- Pushing a sequence of units in order. -/
def pushAll {α : Type} (cap : Nat) (q : List α) (us : List α) : List α :=
  us.foldl (pushFrame cap) q

/-- The state of a `Camera` relevant to `stop_camera`: the `camera_running`
flag, the subprocess handle (`none` when absent), the queued frames, and a
ghost count of subprocess terminations performed so far. -/
structure CameraState where
  camera_running : Bool
  camera_process : Option Nat
  frame_queue : List Nat
  terminations : Nat
deriving DecidableEq

/-- Model of `Camera.stop_camera` (`src/server/camera.py` lines 144-168): clear the
running flag; if a process handle exists, terminate it (counted by the ghost
field) and drop the handle; drain the queue.  The thread join changes no state
modelled here. -/
def stop_camera (s : CameraState) : CameraState :=
  let s1 : CameraState := { s with camera_running := false }
  let s2 : CameraState :=
    match s1.camera_process with
    | some _ =>
      { s1 with camera_process := none, terminations := s1.terminations + 1 }
    | none => s1
  { s2 with frame_queue := [] }

/-- The latency-mode request field; a request without the field defaults to
`ultra` (`webrtc_handler.py` line 104). -/
inductive LatencyMode where
  | ultra
  | low
  | other
deriving DecidableEq

/-- Capture parameters of a client offer; `none` means the field is absent and
the current config value is used. -/
structure OfferParams where
  width : Option Nat
  height : Option Nat
  fps : Option Nat
  quality : Option Nat
  latencyMode : LatencyMode
deriving DecidableEq

/-- The integer-valued capture configuration fields read by the offer path. -/
structure ServerConfig where
  width : Nat
  height : Nat
  fps : Nat
  quality : Nat
deriving DecidableEq

/-- State of a `WebRTCHandler` plus ghost counters for camera starts/stops:
whether `video_track` is set, the size of `peer_connections` (each offer adds
one fresh connection object), and the shared config dict. -/
structure HandlerState where
  config : ServerConfig
  video_track : Bool
  peer_count : Nat
  starts : Nat
  stops : Nat
deriving DecidableEq

/-- Parameter resolution of `WebRTCHandler.offer` (lines 96-114): take each
field from the request or default to the current config, then let the
latency-mode preset override width/height/fps/quality. -/
def resolveSettings (p : OfferParams) (c : ServerConfig) : Nat × Nat × Nat × Nat :=
  let w := p.width.getD c.width
  let h := p.height.getD c.height
  let f := p.fps.getD c.fps
  let q := p.quality.getD c.quality
  match p.latencyMode with
  | LatencyMode.ultra => (320, 240, 60, 70)
  | LatencyMode.low => (640, 480, 30, 75)
  | LatencyMode.other => (w, h, f, q)

/-- The await-free critical section of `WebRTCHandler.offer` (lines 96-148):
resolve settings, overwrite `self.config` with them (lines 116-124), add the
new peer connection, then either create the track and start the camera, or
reuse the track — restarting the camera only if the requested values differ
from `self.config` (lines 143-148), which was just overwritten with exactly
those values. -/
def offer (st : HandlerState) (p : OfferParams) : HandlerState :=
  let r := resolveSettings p st.config
  let w := r.1
  let h := r.2.1
  let f := r.2.2.1
  let q := r.2.2.2
  let c' : ServerConfig := ⟨w, h, f, q⟩
  let st1 : HandlerState :=
    { st with config := c', peer_count := st.peer_count + 1 }
  if st1.video_track then
    if w ≠ c'.width ∨ h ≠ c'.height ∨ f ≠ c'.fps then
      { st1 with stops := st1.stops + 1, starts := st1.starts + 1 }
    else st1
  else
    { st1 with video_track := true, starts := st1.starts + 1 }

/-- A decoded image: rows of pixel triples. -/
abbrev Frame := List (List (Nat × Nat × Nat))

/-- Model of `np.zeros((h, w, 3), dtype=np.uint8)` (`webrtc_handler.py` line 61). -/
def blackFrame (h w : Nat) : Frame :=
  List.replicate h (List.replicate w (0, 0, 0))

/-- Model of `cv2.ROTATE_90_CLOCKWISE`. -/
def rotateCW (f : Frame) : Frame := f.reverse.transpose

/-- Model of `cv2.ROTATE_180`. -/
def rotate180 (f : Frame) : Frame := (f.map List.reverse).reverse

/-- Model of `cv2.ROTATE_90_COUNTERCLOCKWISE`. -/
def rotateCCW (f : Frame) : Frame := f.transpose.reverse

/-- The rotation dispatch of `CameraVideoTrack.recv` (lines 40-47): nothing for
rotation 0 or any value outside the rotation map. -/
def applyRotation (r : Nat) (f : Frame) : Frame :=
  if r = 0 then f
  else if r = 90 then rotateCW f
  else if r = 180 then rotate180 f
  else if r = 270 then rotateCCW f
  else f

/-- Model of `cv2.cvtColor(frame, cv2.COLOR_BGR2RGB)` on one pixel. -/
def bgr2rgb (p : Nat × Nat × Nat) : Nat × Nat × Nat := (p.2.2, p.2.1, p.1)

/-- Model of `CameraVideoTrack.recv` (webrtc_handler.py lines 31-74) after the pop:
`some f` is a frame obtained from the queue within the 50 ms timeout, `none` is
`queue.Empty`, answered with the black fallback frame of the configured
height and width. -/
def recv (cfg_h cfg_w : Nat) (rotation : Nat) (popped : Option Frame) : Frame :=
  match popped with
  | some f => (applyRotation rotation f).map (fun row => row.map bgr2rgb)
  | none => blackFrame cfg_h cfg_w

/-- Model of `self.frame_size = self.width * self.height * 3 // 2`
(`src/webrtc_server.py` line 364). -/
def frame_size (width height : Nat) : Nat := width * height * 3 / 2

/-- Model of `CameraVideoTrack._read_yuv_frame` (`src/webrtc_server.py` lines 428-447):
accumulate reads until `fs` bytes are buffered, then return exactly the first
`fs` bytes, the kept remainder, and the unread chunks; a read returning no
bytes raises `EOFError`, modelled as `Except.error ()`. -/
def readYuvFrame (fs : Nat) (buf : List Nat) :
    List (List Nat) → Except Unit (List Nat × List Nat × List (List Nat))
  | [] =>
    if fs ≤ buf.length then Except.ok (buf.take fs, buf.drop fs, [])
    else Except.error ()
  | c :: cs =>
    if fs ≤ buf.length then Except.ok (buf.take fs, buf.drop fs, c :: cs)
    else if c.isEmpty then Except.error ()
    else readYuvFrame fs (buf ++ c) cs

/-- Loop state of `_read_mjpeg_frame` (`src/enhanced_server.py`): the partial
`frame_data` buffer and the `found_start` flag. -/
structure MjpegState where
  frame_data : List Nat
  found_start : Bool
deriving DecidableEq

/-- Constant `max_frame_size = 1024 * 1024` (`src/enhanced_server.py` line 332). -/
def max_frame_size : Nat := 1024 * 1024

/-- Lines 356-361 of `_read_mjpeg_frame`: if the start marker has not been
seen and one occurs, keep only the bytes from its first occurrence. -/
def mjpegResync (fd : List Nat) (fs : Bool) : List Nat × Bool :=
  if fs then (fd, true)
  else
    match findSub SOI fd with
    | some i => (fd.drop i, true)
    | none => (fd, false)

/-- Lines 363-374 of `_read_mjpeg_frame`: return the complete frame on an end
marker, else reset the buffer when it exceeds `max_frame_size`. -/
def mjpegScan (fd : List Nat) (fs : Bool) : MjpegState ⊕ List Nat :=
  if fs then
    match findSub EOI fd with
    | some e => Sum.inr (fd.take (e + 2))
    | none =>
      if max_frame_size < fd.length then Sum.inl ⟨[], false⟩ else Sum.inl ⟨fd, fs⟩
  else
    if max_frame_size < fd.length then Sum.inl ⟨[], false⟩ else Sum.inl ⟨fd, fs⟩

/-- One iteration of the read loop of `_read_mjpeg_frame` (lines 347-374) on a
non-empty chunk: append the chunk, resync, then scan. -/
def mjpegStep (st : MjpegState) (chunk : List Nat) : MjpegState ⊕ List Nat :=
  mjpegScan (mjpegResync (st.frame_data ++ chunk) st.found_start).1
    (mjpegResync (st.frame_data ++ chunk) st.found_start).2

/-- The H.264 Annex-B start code `00 00 00 01` (`src/multicore-gpu.py`
line 195). -/
def startCode : List Nat := [0, 0, 0, 1]

/-- Second loop of `read_h264_nal_unit` (lines 208-222): `buf` holds the bytes
after the opening start code; scan for the next start code, returning the unit
and the unread chunks; at stream end return the remainder if non-empty.  The
buffered bytes after the found start code are discarded. -/
def nalPhase2 (buf : List Nat) :
    List (List Nat) → Option (List Nat) × List (List Nat)
  | [] =>
    match findSub startCode buf with
    | some ns => (some (startCode ++ buf.take ns), [])
    | none => (if buf.isEmpty then none else some (startCode ++ buf), [])
  | c :: cs =>
    match findSub startCode buf with
    | some ns => (some (startCode ++ buf.take ns), c :: cs)
    | none =>
      if c.isEmpty then (if buf.isEmpty then none else some (startCode ++ buf), cs)
      else nalPhase2 (buf ++ c) cs

/-- First loop of `read_h264_nal_unit` (lines 197-206): read until the first
start code appears, then continue with the bytes after it. -/
def nalPhase1 (buf : List Nat) :
    List (List Nat) → Option (List Nat) × List (List Nat)
  | [] => (none, [])
  | c :: cs =>
    if c.isEmpty then (none, cs)
    else
      match findSub startCode (buf ++ c) with
      | some i => nalPhase2 ((buf ++ c).drop (i + 4)) cs
      | none => nalPhase1 (buf ++ c) cs

/-- Model of `read_h264_nal_unit(stream)` (`src/multicore-gpu.py` lines 192-222): the
local buffer starts empty on every call; the result is the returned unit (or
`none` at immediate stream end) together with the chunks not yet read. -/
def read_h264_nal_unit (chunks : List (List Nat)) :
    Option (List Nat) × List (List Nat) :=
  nalPhase1 [] chunks

/-- A buffer holding a start marker and then a megabyte of data without any
end marker. -/
def oversizedBuf : List Nat := 255 :: 216 :: List.replicate (1024 * 1024) 0

/-! ### Helper lemmas -/

theorem offer_keeps_running (st : HandlerState) (p : OfferParams)
    (h : st.video_track = true) :
    (offer st p).starts = st.starts ∧ (offer st p).video_track = true ∧
      (offer st p).peer_count = st.peer_count + 1 := by
  simp [offer, h]

theorem offers_preserve (ps : List OfferParams) :
    ∀ st : HandlerState, st.video_track = true →
      (ps.foldl offer st).starts = st.starts ∧
      (ps.foldl offer st).video_track = true ∧
      (ps.foldl offer st).peer_count = st.peer_count + ps.length := by
  induction ps with
  | nil => intro st h; simp [h]
  | cons p rest ih =>
    intro st h
    have h1 := offer_keeps_running st p h
    simp only [List.foldl_cons]
    obtain ⟨e1, e2, e3⟩ := ih (offer st p) h1.2.1
    refine ⟨by rw [e1, h1.1], e2, ?_⟩
    rw [e3, h1.2.2, List.length_cons]
    omega

theorem pushAll_eq (cap : Nat) (hcap : 1 ≤ cap) :
    ∀ (us : List Nat) (q : List Nat), q.length ≤ cap →
      pushAll cap q us = (q ++ us).drop (q.length + us.length - cap) := by
  intro us
  induction us with
  | nil =>
    intro q hq
    have hz : q.length - cap = 0 := Nat.sub_eq_zero_of_le hq
    simp [pushAll, hz]
  | cons x us' ih =>
    intro q hq
    simp only [pushAll, List.foldl_cons]
    by_cases hlt : q.length < cap
    · have hq' : (q ++ [x]).length ≤ cap := by simp; omega
      have := ih (q ++ [x]) hq'
      simp only [pushAll] at this
      rw [pushFrame, if_pos hlt, this]
      have hamt : (q ++ [x]).length + us'.length - cap
          = q.length + (x :: us').length - cap := by simp; omega
      rw [hamt, List.append_assoc, List.singleton_append]
    · have hqe : q.length = cap := by omega
      cases q with
      | nil => simp at hqe; omega
      | cons a q' =>
        have hq' : (q'.drop 0 ++ [x]).length ≤ cap := by
          simp at hqe ⊢; omega
        rw [pushFrame, if_neg hlt]
        have hdrop : (a :: q').drop 1 = q' := rfl
        rw [hdrop]
        have := ih (q' ++ [x]) (by simp at hqe ⊢; omega)
        simp only [pushAll] at this
        rw [this]
        have h1 : (q' ++ [x]).length + us'.length - cap = us'.length := by
          simp at hqe ⊢; omega
        have h2 : (a :: q').length + (x :: us').length - cap = us'.length + 1 := by
          simp at hqe ⊢; omega
        rw [h1, h2, List.append_assoc, List.singleton_append, List.cons_append,
          List.drop_succ_cons]

/-! ### Claim theorems -/

/-- C8: stopping the capture is idempotent: a second `stop_camera` after one
has completed changes nothing, performs no further subprocess termination, and
raises no error (the model is a total function); the post-stop state has no
process, an empty queue and a cleared running flag. -/
theorem stop_camera_idempotent (s : CameraState) :
    stop_camera (stop_camera s) = stop_camera s ∧
    (stop_camera s).camera_running = false ∧
    (stop_camera s).camera_process = none ∧
    (stop_camera s).frame_queue = [] ∧
    (stop_camera (stop_camera s)).terminations = (stop_camera s).terminations := by
  cases hp : s.camera_process <;> simp [stop_camera, hp]

/-- C3: any number of acquire requests (offers) against an idle session, in any
interleaving order of their await-free critical sections, performs exactly one
camera start, and the viewer count afterwards equals the number of offers. -/
theorem single_flight_start (c0 : ServerConfig) (ps : List OfferParams)
    (hne : ps ≠ []) :
    (ps.foldl offer ⟨c0, false, 0, 0, 0⟩).starts = 1 ∧
    (ps.foldl offer ⟨c0, false, 0, 0, 0⟩).peer_count = ps.length := by
  cases ps with
  | nil => exact absurd rfl hne
  | cons p rest =>
    simp only [List.foldl_cons]
    have hfirst : (offer ⟨c0, false, 0, 0, 0⟩ p).starts = 1 ∧
        (offer ⟨c0, false, 0, 0, 0⟩ p).video_track = true ∧
        (offer ⟨c0, false, 0, 0, 0⟩ p).peer_count = 1 := by
      simp [offer]
    obtain ⟨f1, f2, f3⟩ := hfirst
    obtain ⟨e1, e2, e3⟩ := offers_preserve rest _ f2
    refine ⟨by rw [e1, f1], ?_⟩
    rw [e3, f3, List.length_cons]
    omega

theorem single_flight_start_witness :
    ((([⟨none, none, none, none, LatencyMode.ultra⟩,
        ⟨some 640, none, none, none, LatencyMode.other⟩] : List OfferParams).foldl
        offer ⟨⟨640, 480, 30, 75⟩, false, 0, 0, 0⟩).starts = 1) ∧
    ((([⟨none, none, none, none, LatencyMode.ultra⟩,
        ⟨some 640, none, none, none, LatencyMode.other⟩] : List OfferParams).foldl
        offer ⟨⟨640, 480, 30, 75⟩, false, 0, 0, 0⟩).peer_count = 2) :=
  single_flight_start ⟨640, 480, 30, 75⟩ _ (by simp)

/-- C9: the restart branch of `offer` compares the requested values against the
config that lines 116-124 already overwrote with those very values, so a viewer
requesting different resolution or frame rate never triggers a stop/restart:
`stops` never changes, and on a running session `starts` does not change
either. -/
theorem offer_never_restarts (st : HandlerState) (p : OfferParams) :
    (offer st p).stops = st.stops ∧
    (st.video_track = true → (offer st p).starts = st.starts) := by
  constructor
  · cases h : st.video_track <;> simp [offer, h]
  · intro h; simp [offer, h]

theorem offer_never_restarts_witness :
    (offer ⟨⟨640, 480, 30, 75⟩, true, 1, 1, 0⟩
      ⟨some 320, some 240, some 15, some 50, LatencyMode.other⟩).stops = 0 ∧
    (offer ⟨⟨640, 480, 30, 75⟩, true, 1, 1, 0⟩
      ⟨some 320, some 240, some 15, some 50, LatencyMode.other⟩).starts = 1 :=
  ⟨(offer_never_restarts _ _).1, (offer_never_restarts _ _).2 rfl⟩

/-- C7: when the pop times out (`queue.Empty`), `recv` answers with the black
fallback frame: `height` rows of `width` all-zero pixels; the model is a total
function, so no error is raised and no unbounded blocking occurs. -/
theorem recv_fallback_on_empty (h w r : Nat) :
    recv h w r none = blackFrame h w ∧
    (blackFrame h w).length = h ∧
    (∀ row ∈ blackFrame h w, row.length = w) ∧
    (∀ row ∈ blackFrame h w, ∀ px ∈ row, px = (0, 0, 0)) := by
  refine ⟨rfl, by simp [blackFrame], ?_, ?_⟩
  · intro row hrow
    have hr : row = List.replicate w (0, 0, 0) :=
      List.eq_of_mem_replicate (by simpa [blackFrame] using hrow)
    rw [hr]
    simp
  · intro row hrow px hpx
    have hr : row = List.replicate w (0, 0, 0) :=
      List.eq_of_mem_replicate (by simpa [blackFrame] using hrow)
    rw [hr] at hpx
    exact List.eq_of_mem_replicate hpx

theorem recv_fallback_on_empty_witness :
    recv 2 3 0 none = blackFrame 2 3 ∧ (blackFrame 2 3).length = 2 ∧
    (List.replicate 3 ((0 : Nat), (0 : Nat), (0 : Nat))).length = 3 :=
  ⟨(recv_fallback_on_empty 2 3 0).1, (recv_fallback_on_empty 2 3 0).2.1,
   (recv_fallback_on_empty 2 3 0).2.2.1 (List.replicate 3 (0, 0, 0)) (by decide)⟩

/-- C2: pushing `k > cap ≥ 1` units into the queue (no concurrent pops) keeps
only the most recent `cap`, oldest-first; the occupancy never exceeds `cap` at
any intermediate point; a push at capacity evicts exactly the single oldest
entry before inserting, and below capacity only appends.  Every push is a total
function (non-blocking). -/
theorem buffer_freshest_wins (cap : Nat) (us : List Nat) (hcap : 1 ≤ cap)
    (hk : cap < us.length) :
    pushAll cap [] us = us.drop (us.length - cap) ∧
    (pushAll cap [] us).length = cap ∧
    (∀ pfx sfx : List Nat, us = pfx ++ sfx → (pushAll cap [] pfx).length ≤ cap) ∧
    (∀ (q : List Nat) (x : Nat), q.length = cap → pushFrame cap q x = q.drop 1 ++ [x]) ∧
    (∀ (q : List Nat) (x : Nat), q.length < cap → pushFrame cap q x = q ++ [x]) := by
  have hmain : pushAll cap [] us = us.drop (us.length - cap) := by
    have := pushAll_eq cap hcap us [] (by simp)
    simpa using this
  refine ⟨hmain, ?_, ?_, ?_, ?_⟩
  · rw [hmain, List.length_drop]
    omega
  · intro pfx sfx _
    have := pushAll_eq cap hcap pfx [] (by simp)
    simp only [List.nil_append, List.length_nil, Nat.zero_add] at this
    rw [this, List.length_drop]
    omega
  · intro q x hq
    rw [pushFrame, if_neg (by omega)]
  · intro q x hq
    rw [pushFrame, if_pos hq]

theorem buffer_freshest_wins_witness :
    pushAll 2 ([] : List Nat) [1, 2, 3, 4, 5] = [4, 5] ∧
    (pushAll 2 ([] : List Nat) [1, 2, 3]).length ≤ 2 ∧
    pushFrame 2 [8, 9] 3 = [9, 3] := by
  have h := buffer_freshest_wins 2 [1, 2, 3, 4, 5] (by decide) (by decide)
  exact ⟨h.1.trans rfl, h.2.2.1 [1, 2, 3] [4, 5] rfl,
    (h.2.2.2.1 [8, 9] 3 rfl).trans rfl⟩

theorem leadsWith_append {p s : List Nat} (t : List Nat)
    (h : leadsWith p s = true) : leadsWith p (s ++ t) = true := by
  induction p generalizing s with
  | nil => simp [leadsWith]
  | cons a q ih =>
    cases s with
    | nil => simp [leadsWith] at h
    | cons b s' =>
      simp only [leadsWith, Bool.and_eq_true] at h ⊢
      exact ⟨h.1, ih h.2⟩

theorem leadsWith_of_append_le {p u : List Nat} (v : List Nat)
    (h : leadsWith p (u ++ v) = true) (hlen : p.length ≤ u.length) :
    leadsWith p u = true := by
  induction p generalizing u with
  | nil => simp [leadsWith]
  | cons a q ih =>
    cases u with
    | nil => simp at hlen
    | cons b u' =>
      simp only [List.cons_append, leadsWith, Bool.and_eq_true] at h ⊢
      exact ⟨h.1, ih h.2 (by simpa using hlen)⟩

theorem leadsWith_of_take {p s : List Nat} {m : Nat}
    (h : leadsWith p (s.take m) = true) : leadsWith p s = true := by
  have := leadsWith_append (s.drop m) h
  rwa [List.take_append_drop] at this

theorem findSub_of_leadsWith {p s : List Nat} (h : leadsWith p s = true) :
    findSub p s = some 0 := by
  cases s <;> simp [findSub, h]

theorem findSub_some_occurs {p : List Nat} :
    ∀ {s : List Nat} {i : Nat}, findSub p s = some i → occursAt p s i := by
  intro s
  induction s with
  | nil =>
    intro i h
    by_cases hp : leadsWith p [] = true
    · have hi : i = 0 := by simp [findSub, hp] at h; omega
      subst hi
      exact hp
    · simp [findSub, hp] at h
  | cons b t ih =>
    intro i h
    by_cases hp : leadsWith p (b :: t) = true
    · have hi : i = 0 := by simp [findSub, hp] at h; omega
      subst hi
      exact hp
    · rw [findSub, if_neg hp] at h
      cases hft : findSub p t with
      | none => rw [hft] at h; simp at h
      | some j =>
        rw [hft] at h
        simp only [Option.map_some'] at h
        have hij : j + 1 = i := by injection h
        subst hij
        have := ih hft
        simpa [occursAt, List.drop_succ_cons] using this

theorem findSub_some_min {p : List Nat} :
    ∀ {s : List Nat} {i : Nat}, findSub p s = some i →
      ∀ j, j < i → ¬ occursAt p s j := by
  intro s
  induction s with
  | nil =>
    intro i h j hj
    by_cases hp : leadsWith p [] = true
    · have hi : i = 0 := by simp [findSub, hp] at h; omega
      omega
    · simp [findSub, hp] at h
  | cons b t ih =>
    intro i h j hj
    by_cases hp : leadsWith p (b :: t) = true
    · have hi : i = 0 := by simp [findSub, hp] at h; omega
      omega
    · rw [findSub, if_neg hp] at h
      cases hft : findSub p t with
      | none => rw [hft] at h; simp at h
      | some j' =>
        rw [hft] at h
        simp only [Option.map_some'] at h
        have hij : j' + 1 = i := by injection h
        cases j with
        | zero => simpa [occursAt] using hp
        | succ m =>
          have hm : m < j' := by omega
          have := ih hft m hm
          simpa [occursAt, List.drop_succ_cons] using this

theorem findSub_none_occurs {p : List Nat} :
    ∀ {s : List Nat}, findSub p s = none → ∀ j, ¬ occursAt p s j := by
  intro s
  induction s with
  | nil =>
    intro h j
    by_cases hp : leadsWith p [] = true
    · simp [findSub, hp] at h
    · simpa [occursAt, List.drop_nil] using hp
  | cons b t ih =>
    intro h j
    by_cases hp : leadsWith p (b :: t) = true
    · simp [findSub, hp] at h
    · rw [findSub, if_neg hp] at h
      cases hft : findSub p t with
      | some j' => simp [hft] at h
      | none =>
        cases j with
        | zero => simpa [occursAt] using hp
        | succ m => simpa [occursAt, List.drop_succ_cons] using ih hft m

theorem findSub_append_some {p : List Nat} (y : List Nat) :
    ∀ {s : List Nat} {i : Nat}, findSub p s = some i → findSub p (s ++ y) = some i := by
  intro s
  induction s with
  | nil =>
    intro i h
    by_cases hp : leadsWith p [] = true
    · have hi : i = 0 := by simp [findSub, hp] at h; omega
      subst hi
      have : leadsWith p ([] ++ y) = true := leadsWith_append y hp
      simpa using findSub_of_leadsWith this
    · simp [findSub, hp] at h
  | cons b t ih =>
    intro i h
    by_cases hp : leadsWith p (b :: t) = true
    · have hi : i = 0 := by simp [findSub, hp] at h; omega
      subst hi
      exact findSub_of_leadsWith (by simpa using leadsWith_append y hp)
    · rw [findSub, if_neg hp] at h
      cases hft : findSub p t with
      | none => rw [hft] at h; simp at h
      | some j =>
        rw [hft] at h
        simp only [Option.map_some'] at h
        have hij : j + 1 = i := by injection h
        subst hij
        have hrec := ih hft
        have hplen : p.length ≤ t.length := by
          have := findSub_some_bound hft
          omega
        have hnp : ¬ leadsWith p (b :: (t ++ y)) = true := by
          intro habs
          have : leadsWith p (b :: t) = true := by
            have := leadsWith_of_append_le (u := b :: t) y
              (by simpa using habs) (by simp; omega)
            exact this
          exact hp this
        rw [List.cons_append, findSub, if_neg hnp, hrec]
        rfl

theorem findSub_pair_append {a c : Nat} (hac : a ≠ c) :
    ∀ (g : List Nat) {z : List Nat},
      findSub [a, c] g = none →
      findSub [a, c] (g ++ (a :: z)) = (findSub [a, c] (a :: z)).map (· + g.length) := by
  intro g
  induction g with
  | nil =>
    intro z _
    simp
  | cons b g' ih =>
    intro z hnone
    have hnp : ¬ leadsWith [a, c] (b :: g') = true := by
      intro habs
      simp [findSub, habs] at hnone
    have hg' : findSub [a, c] g' = none := by
      rw [findSub, if_neg hnp] at hnone
      cases hft : findSub [a, c] g' with
      | none => rfl
      | some j => simp [hft] at hnone
    have hnp2 : ¬ leadsWith [a, c] (b :: (g' ++ a :: z)) = true := by
      intro habs
      simp only [leadsWith, Bool.and_eq_true, beq_iff_eq] at habs
      obtain ⟨hab, habs2⟩ := habs
      cases g' with
      | nil =>
        simp only [List.nil_append, leadsWith, Bool.and_eq_true, beq_iff_eq] at habs2
        exact hac habs2.1.symm
      | cons d g'' =>
        simp only [List.cons_append, leadsWith, Bool.and_eq_true, beq_iff_eq] at habs2
        apply hnp
        simp [leadsWith, hab, habs2.1]
    rw [List.cons_append, findSub, if_neg hnp2, ih hg']
    cases hz : findSub [a, c] (a :: z) with
    | none => simp
    | some j => simp [List.length_cons]; omega

theorem extractFrames_no_soi {buffer : List Nat}
    (h : findSub SOI buffer = none) : extractFrames buffer = ([], buffer) := by
  rw [extractFrames]
  split
  · rfl
  next s heq =>
    rw [h] at heq
    exact absurd heq (by simp)

theorem extractFrames_no_eoi {buffer : List Nat} {s : Nat}
    (h1 : findSub SOI buffer = some s) (h2 : findSub EOI (buffer.drop s) = none) :
    extractFrames buffer = ([], buffer) := by
  rw [extractFrames]
  split
  · rfl
  next s' heq =>
    rw [h1] at heq
    have hs : s' = s := by injection heq.symm
    subst hs
    split
    · rfl
    next k heq2 =>
      rw [h2] at heq2
      exact absurd heq2 (by simp)

theorem extractFrames_step {buffer : List Nat} {s k : Nat}
    (h1 : findSub SOI buffer = some s) (h2 : findSub EOI (buffer.drop s) = some k) :
    extractFrames buffer =
      ((buffer.drop s).take (k + 2) :: (extractFrames (buffer.drop (s + k + 2))).1,
        (extractFrames (buffer.drop (s + k + 2))).2) := by
  rw [extractFrames]
  split
  next heq => rw [h1] at heq; exact absurd heq (by simp)
  next s' heq =>
    rw [h1] at heq
    have hs : s' = s := by injection heq.symm
    subst hs
    split
    next heq2 => rw [h2] at heq2; exact absurd heq2 (by simp)
    next k' heq2 =>
      rw [h2] at heq2
      have hk : k' = k := by injection heq2.symm
      subst hk
      rfl

theorem leadsWith_self_append (p t : List Nat) : leadsWith p (p ++ t) = true := by
  induction p with
  | nil => simp [leadsWith]
  | cons a q ih => simp [leadsWith, ih]

theorem extractFrames_empty : extractFrames [] = ([], []) :=
  extractFrames_no_soi rfl

theorem extractFrames_leftover :
    ∀ (n : Nat) (buffer : List Nat), buffer.length ≤ n →
      extractFrames (extractFrames buffer).2 = ([], (extractFrames buffer).2) := by
  intro n
  induction n with
  | zero =>
    intro buffer hb
    have hbe : buffer = [] := List.eq_nil_of_length_eq_zero (Nat.le_zero.mp hb)
    subst hbe
    rw [extractFrames_empty]
    exact extractFrames_empty
  | succ n ih =>
    intro buffer hb
    cases h1 : findSub SOI buffer with
    | none =>
      rw [extractFrames_no_soi h1]
      exact extractFrames_no_soi h1
    | some s =>
      cases h2 : findSub EOI (buffer.drop s) with
      | none =>
        rw [extractFrames_no_eoi h1 h2]
        exact extractFrames_no_eoi h1 h2
      | some k =>
        rw [extractFrames_step h1 h2]
        have hblen := findSub_some_bound h1
        simp only [SOI, List.length_cons, List.length_nil] at hblen
        have hrest : (buffer.drop (s + k + 2)).length ≤ n := by
          simp only [List.length_drop]
          omega
        exact ih (buffer.drop (s + k + 2)) hrest

theorem extractFrames_stuck (buffer : List Nat) :
    extractFrames (extractFrames buffer).2 = ([], (extractFrames buffer).2) :=
  extractFrames_leftover buffer.length buffer le_rfl

theorem extractFrames_append :
    ∀ (n : Nat) (x : List Nat), x.length ≤ n → ∀ (y : List Nat),
      extractFrames (x ++ y) =
        ((extractFrames x).1 ++ (extractFrames ((extractFrames x).2 ++ y)).1,
          (extractFrames ((extractFrames x).2 ++ y)).2) := by
  intro n
  induction n with
  | zero =>
    intro x hx y
    have hxe : x = [] := List.eq_nil_of_length_eq_zero (Nat.le_zero.mp hx)
    subst hxe
    rw [extractFrames_empty]
    simp
  | succ n ih =>
    intro x hx y
    cases h1 : findSub SOI x with
    | none =>
      rw [extractFrames_no_soi h1]
      simp
    | some s =>
      cases h2 : findSub EOI (x.drop s) with
      | none =>
        rw [extractFrames_no_eoi h1 h2]
        simp
      | some k =>
        have hb1 := findSub_some_bound h1
        simp only [SOI, List.length_cons, List.length_nil] at hb1
        have hb2 := findSub_some_bound h2
        simp only [EOI, List.length_cons, List.length_nil, List.length_drop] at hb2
        have hs_le : s ≤ x.length := by omega
        have hsk_le : s + k + 2 ≤ x.length := by omega
        have hk2 : k + 2 ≤ (x.drop s).length := by
          simp only [List.length_drop]; omega
        have h1' : findSub SOI (x ++ y) = some s := findSub_append_some y h1
        have hdrop_app : (x ++ y).drop s = x.drop s ++ y := by
          rw [List.drop_append_eq_append_drop, Nat.sub_eq_zero_of_le hs_le,
            List.drop_zero]
        have h2' : findSub EOI ((x ++ y).drop s) = some k := by
          rw [hdrop_app]
          exact findSub_append_some y h2
        rw [extractFrames_step h1' h2', extractFrames_step h1 h2]
        have hjpeg : ((x ++ y).drop s).take (k + 2) = (x.drop s).take (k + 2) := by
          rw [hdrop_app, List.take_append_eq_append_take,
            Nat.sub_eq_zero_of_le hk2, List.take_zero, List.append_nil]
        have hrest_app : (x ++ y).drop (s + k + 2) = x.drop (s + k + 2) ++ y := by
          rw [List.drop_append_eq_append_drop, Nat.sub_eq_zero_of_le hsk_le,
            List.drop_zero]
        have hx' : (x.drop (s + k + 2)).length ≤ n := by
          simp only [List.length_drop]; omega
        have hih := ih (x.drop (s + k + 2)) hx' y
        rw [hjpeg, hrest_app, hih]
        simp

theorem extractFrames_append' (x y : List Nat) :
    extractFrames (x ++ y) =
      ((extractFrames x).1 ++ (extractFrames ((extractFrames x).2 ++ y)).1,
        (extractFrames ((extractFrames x).2 ++ y)).2) :=
  extractFrames_append x.length x le_rfl y

theorem feedChunks_eq :
    ∀ (cs : List (List Nat)) (b : List Nat), extractFrames b = ([], b) →
      feedChunks b cs = extractFrames (b ++ cs.flatten) := by
  intro cs
  induction cs with
  | nil =>
    intro b hb
    rw [List.flatten_nil, List.append_nil, hb]
    simp [feedChunks]
  | cons c cs' ih =>
    intro b hb
    by_cases hc : c.isEmpty
    · have hce : c = [] := by
        cases c with
        | nil => rfl
        | cons d t => simp [List.isEmpty] at hc
      subst hce
      simp only [feedChunks, if_pos hc]
      rw [ih b hb]
      simp [List.flatten_cons]
    · rw [feedChunks, if_neg (by simpa using hc)]
      rw [ih (extractFrames (b ++ c)).2 (extractFrames_stuck (b ++ c))]
      rw [List.flatten_cons, ← List.append_assoc]
      rw [extractFrames_append' (b ++ c) cs'.flatten]

theorem WFJpeg_leadsWith {u : List Nat} (hu : WFJpeg u) :
    leadsWith SOI u = true := by
  obtain ⟨hlen, htake, _, _⟩ := hu
  have hdecomp : u = SOI ++ u.drop 2 := by
    conv_lhs => rw [← List.take_append_drop 2 u]
    rw [htake]
  rw [hdecomp]
  exact leadsWith_self_append SOI (u.drop 2)

theorem extract_flatten :
    ∀ (units : List (List Nat)), (∀ u ∈ units, WFJpeg u) →
      extractFrames units.flatten = (units, []) := by
  intro units
  induction units with
  | nil =>
    intro _
    rw [List.flatten_nil]
    exact extractFrames_empty
  | cons u us ih =>
    intro hwf
    have hu := hwf u (List.mem_cons_self u us)
    obtain ⟨hlen, htake, hfind, _⟩ := hu
    have hlw : leadsWith SOI u = true := WFJpeg_leadsWith (hwf u (List.mem_cons_self u us))
    rw [List.flatten_cons]
    have h1 : findSub SOI (u ++ us.flatten) = some 0 :=
      findSub_of_leadsWith (leadsWith_append us.flatten hlw)
    have h2 : findSub EOI ((u ++ us.flatten).drop 0) = some (u.length - 2) := by
      rw [List.drop_zero]
      exact findSub_append_some us.flatten hfind
    rw [extractFrames_step h1 h2]
    have hk2 : u.length - 2 + 2 = u.length := by omega
    have h02 : 0 + (u.length - 2) + 2 = u.length := by omega
    rw [List.drop_zero, hk2, h02, List.take_left, List.drop_left,
      ih (fun v hv => hwf v (List.mem_cons_of_mem u hv))]

/-- C1: feeding any chunking of the concatenation of well-formed
marker-delimited units through the `camera_reader` framer emits exactly those
units, byte-identical and in order, with an empty leftover buffer — the result
depends only on the concatenation, not on the chunk boundaries. -/
theorem framer_roundtrip (units chunks : List (List Nat))
    (hwf : ∀ u ∈ units, WFJpeg u) (hchunk : chunks.flatten = units.flatten) :
    feedChunks [] chunks = (units, []) := by
  rw [feedChunks_eq chunks [] extractFrames_empty, List.nil_append, hchunk]
  exact extract_flatten units hwf

theorem framer_roundtrip_witness :
    feedChunks [] [[255], [216, 255, 217, 255, 216], [7, 255], [217]]
      = ([[255, 216, 255, 217], [255, 216, 7, 255, 217]], []) :=
  framer_roundtrip [[255, 216, 255, 217], [255, 216, 7, 255, 217]]
    [[255], [216, 255, 217, 255, 216], [7, 255], [217]] (by decide) (by decide)

/-- C4: on a stream of garbage bytes containing no start marker followed by one
well-formed unit, the framer consumes everything, discarding exactly the
garbage, and emits that unit byte-identical. -/
theorem framer_resync (g u : List Nat) (hg : findSub SOI g = none)
    (hu : WFJpeg u) : extractFrames (g ++ u) = ([u], []) := by
  have hlen : 4 ≤ u.length := hu.1
  have htake : u.take 2 = SOI := hu.2.1
  have hfind : findSub EOI u = some (u.length - 2) := hu.2.2.1
  have hdecomp : u = 255 :: 216 :: u.drop 2 := by
    have h0 : u = SOI ++ u.drop 2 := by
      conv_lhs => rw [← List.take_append_drop 2 u]
      rw [htake]
    simpa [SOI] using h0
  have hu0 : findSub SOI u = some 0 :=
    findSub_of_leadsWith (WFJpeg_leadsWith hu)
  have hss : findSub [255, 216] (255 :: 216 :: u.drop 2) = some 0 := by
    rw [← hdecomp]
    exact hu0
  have h1 : findSub SOI (g ++ u) = some g.length := by
    have hg' : findSub [255, 216] g = none := hg
    have hp := findSub_pair_append (a := 255) (c := 216) (by omega) g
      (z := 216 :: u.drop 2) hg'
    show findSub [255, 216] (g ++ u) = some g.length
    conv_lhs => rw [hdecomp]
    rw [hp, hss]
    simp
  have h2 : findSub EOI ((g ++ u).drop g.length) = some (u.length - 2) := by
    rw [List.drop_left]
    exact hfind
  rw [extractFrames_step h1 h2]
  have hk2 : u.length - 2 + 2 = u.length := by omega
  have hgl : g.length + (u.length - 2) + 2 = g.length + u.length := by omega
  rw [List.drop_left, hk2, List.take_length, hgl]
  have hrest : (g ++ u).drop (g.length + u.length) = [] := by
    have hlen2 : (g ++ u).length = g.length + u.length := by simp
    rw [← hlen2, List.drop_length]
  rw [hrest, extractFrames_empty]

theorem framer_resync_witness :
    extractFrames ([1, 255, 217, 255] ++ [255, 216, 255, 217])
      = ([[255, 216, 255, 217]], []) :=
  framer_resync [1, 255, 217, 255] [255, 216, 255, 217] (by decide) (by decide)

theorem findSub_eoi_replicate (n : Nat) :
    findSub [255, 217] (List.replicate n 0) = none := by
  induction n with
  | zero => rfl
  | succ m ih =>
    rw [List.replicate_succ, findSub, if_neg (by simp [leadsWith]), ih]
    rfl

theorem oversized_len : oversizedBuf.length = 1024 * 1024 + 2 := by
  show (255 :: 216 :: List.replicate (1024 * 1024) 0).length = 1024 * 1024 + 2
  rw [List.length_cons, List.length_cons, List.length_replicate]

theorem findSub_eoi_oversized : findSub EOI oversizedBuf = none := by
  show findSub [255, 217] (255 :: 216 :: List.replicate (1024 * 1024) 0) = none
  rw [findSub, if_neg (by simp [leadsWith]), findSub,
    if_neg (by simp [leadsWith]), findSub_eoi_replicate]
  rfl

theorem extractFrames_no_eoi_any {buf : List Nat}
    (h : findSub EOI buf = none) : extractFrames buf = ([], buf) := by
  cases h1 : findSub SOI buf with
  | none => exact extractFrames_no_soi h1
  | some s =>
    have h2 : findSub EOI (buf.drop s) = none := by
      cases h2 : findSub EOI (buf.drop s) with
      | none => rfl
      | some k =>
        have hocc := findSub_some_occurs h2
        have habs : occursAt EOI buf (s + k) := by
          simpa [occursAt, List.drop_drop, Nat.add_comm] using hocc
        exact absurd habs (findSub_none_occurs h (s + k))
    exact extractFrames_no_eoi h1 h2

/-- C5 counterexample: for a buffer holding a start marker and then a full
megabyte with no end marker, the `camera_reader` framer discards nothing and
emits nothing — the whole oversized buffer is retained, contradicting the
claimed maximum-unit-size discard for this framer. -/
theorem framer_no_discard_counterexample :
    extractFrames oversizedBuf = ([], oversizedBuf) ∧
    findSub SOI oversizedBuf = some 0 ∧
    findSub EOI oversizedBuf = none ∧
    max_frame_size < oversizedBuf.length := by
  refine ⟨extractFrames_no_eoi_any findSub_eoi_oversized, ?_,
    findSub_eoi_oversized, ?_⟩
  · exact findSub_of_leadsWith (by simp [SOI, oversizedBuf, leadsWith])
  · rw [oversized_len]
    show (1024 * 1024 : Nat) < 1024 * 1024 + 2
    omega

theorem mjpegScan_inl_bound (fd : List Nat) (fs : Bool) (st' : MjpegState)
    (h : mjpegScan fd fs = Sum.inl st') :
    st'.frame_data.length ≤ max_frame_size := by
  cases fs with
  | false =>
    rw [mjpegScan, if_neg (by simp)] at h
    by_cases hlen : max_frame_size < fd.length
    · rw [if_pos hlen] at h
      injection h with h'
      rw [← h']
      simp
    · rw [if_neg hlen] at h
      injection h with h'
      rw [← h']
      exact Nat.le_of_not_lt hlen
  | true =>
    rw [mjpegScan, if_pos rfl] at h
    cases he : findSub EOI fd with
    | some e => rw [he] at h; exact absurd h (by simp)
    | none =>
      rw [he] at h
      by_cases hlen : max_frame_size < fd.length
      · rw [if_pos hlen] at h
        injection h with h'
        rw [← h']
        simp
      · rw [if_neg hlen] at h
        injection h with h'
        rw [← h']
        exact Nat.le_of_not_lt hlen

/-- C5 (amended): the `camera_reader` framer of `src/server/camera.py`
imposes no maximum unit size — when no end marker is present it retains the
entire buffer, however large, and discards nothing; the claimed behaviour
(discard the partial buffer once it exceeds 1 MiB and resynchronize from the
next start marker) is implemented only by `_read_mjpeg_frame` of
`src/enhanced_server.py`, whose loop state after any non-returning iteration
is bounded by `max_frame_size`, and which on overflow resets to an empty
buffer with the start-marker flag cleared. -/
theorem framer_max_size_amended (buf : List Nat) (st : MjpegState)
    (c : List Nat) (st' : MjpegState) :
    (findSub EOI buf = none → extractFrames buf = ([], buf)) ∧
    (mjpegStep st c = Sum.inl st' → st'.frame_data.length ≤ max_frame_size) ∧
    (st.found_start = true → findSub EOI (st.frame_data ++ c) = none →
      max_frame_size < (st.frame_data ++ c).length →
      mjpegStep st c = Sum.inl ⟨[], false⟩) := by
  refine ⟨fun h => extractFrames_no_eoi_any h, fun h => ?_, fun hfs hno hlen => ?_⟩
  · exact mjpegScan_inl_bound _ _ st' h
  · rw [mjpegStep, mjpegResync, if_pos hfs]
    rw [mjpegScan, if_pos rfl, hno, if_pos hlen]

theorem framer_max_size_amended_witness :
    extractFrames [255, 216, 5] = ([], [255, 216, 5]) ∧
    (MjpegState.mk [1, 2, 3] false).frame_data.length ≤ max_frame_size ∧
    mjpegStep ⟨oversizedBuf, true⟩ [] = Sum.inl ⟨[], false⟩ := by
  refine ⟨(framer_max_size_amended [255, 216, 5] ⟨[1, 2], false⟩ [3]
      ⟨[1, 2, 3], false⟩).1 (by decide),
    (framer_max_size_amended [255, 216, 5] ⟨[1, 2], false⟩ [3]
      ⟨[1, 2, 3], false⟩).2.1 (by decide),
    (framer_max_size_amended [255, 216, 5] ⟨oversizedBuf, true⟩ []
      ⟨[], false⟩).2.2 rfl ?_ ?_⟩
  · show findSub EOI (oversizedBuf ++ []) = none
    rw [List.append_nil]
    exact findSub_eoi_oversized
  · show max_frame_size < (oversizedBuf ++ []).length
    rw [List.append_nil, oversized_len]
    show (1024 * 1024 : Nat) < 1024 * 1024 + 2
    omega

theorem readYuvFrame_spec (fs : Nat) :
    ∀ (chunks : List (List Nat)) (buf : List Nat),
      (∀ f b r, readYuvFrame fs buf chunks = Except.ok (f, b, r) →
          f.length = fs ∧
          ∃ pre, chunks = pre ++ r ∧ f ++ b = buf ++ pre.flatten ∧
            fs ≤ buf.length + pre.flatten.length) ∧
      (buf.length + chunks.flatten.length < fs →
          readYuvFrame fs buf chunks = Except.error ()) := by
  intro chunks
  induction chunks with
  | nil =>
    intro buf
    constructor
    · intro f b r h
      rw [readYuvFrame] at h
      by_cases hle : fs ≤ buf.length
      · rw [if_pos hle] at h
        simp only [Except.ok.injEq, Prod.mk.injEq] at h
        obtain ⟨rfl, rfl, rfl⟩ := h
        refine ⟨?_, [], rfl, ?_, ?_⟩
        · rw [List.length_take]
          omega
        · rw [List.take_append_drop, List.flatten_nil, List.append_nil]
        · simpa using hle
      · rw [if_neg hle] at h
        simp at h
    · intro hlt
      rw [readYuvFrame, if_neg (by simp at hlt; omega)]
  | cons c cs ih =>
    intro buf
    constructor
    · intro f b r h
      rw [readYuvFrame] at h
      by_cases hle : fs ≤ buf.length
      · rw [if_pos hle] at h
        simp only [Except.ok.injEq, Prod.mk.injEq] at h
        obtain ⟨rfl, rfl, rfl⟩ := h
        refine ⟨?_, [], rfl, ?_, ?_⟩
        · rw [List.length_take]
          omega
        · rw [List.take_append_drop, List.flatten_nil, List.append_nil]
        · simpa using hle
      · rw [if_neg hle] at h
        by_cases hc : c.isEmpty
        · rw [if_pos hc] at h
          simp at h
        · rw [if_neg hc] at h
          obtain ⟨hflen, pre, hpre, hcat, hge⟩ := (ih (buf ++ c)).1 f b r h
          refine ⟨hflen, c :: pre, ?_, ?_, ?_⟩
          · rw [List.cons_append, hpre]
          · rw [hcat, List.flatten_cons, List.append_assoc]
          · rw [List.flatten_cons]
            rw [List.length_append] at hge
            rw [List.length_append]
            omega
    · intro hlt
      have hnle : ¬ fs ≤ buf.length := by
        rw [List.flatten_cons, List.length_append] at hlt
        omega
      rw [readYuvFrame, if_neg hnle]
      by_cases hc : c.isEmpty
      · rw [if_pos hc]
      · rw [if_neg hc]
        apply (ih (buf ++ c)).2
        rw [List.flatten_cons, List.length_append] at hlt
        rw [List.length_append]
        omega

/-- C6: with the fixed-size YUV420p framing of `_read_yuv_frame`, every frame
returned is exactly `width * height * 3 / 2` bytes, is returned only once at
least that many bytes have accumulated across reads (it is the initial segment
of the accumulated bytes, the rest being kept), and a stream that ends before
a full frame has accumulated raises the end-of-stream error instead of
returning a partial frame. -/
theorem yuv_framing (w h : Nat) (buf : List Nat) (chunks : List (List Nat)) :
    (∀ f b r, readYuvFrame (frame_size w h) buf chunks = Except.ok (f, b, r) →
        f.length = frame_size w h ∧
        ∃ pre, chunks = pre ++ r ∧ f ++ b = buf ++ pre.flatten ∧
          frame_size w h ≤ buf.length + pre.flatten.length) ∧
    (buf.length + chunks.flatten.length < frame_size w h →
        readYuvFrame (frame_size w h) buf chunks = Except.error ()) :=
  readYuvFrame_spec (frame_size w h) chunks buf

theorem yuv_framing_witness :
    [1, 2, 3, 4, 5, 6].length = frame_size 2 2 ∧
    readYuvFrame (frame_size 2 2) [] [[1, 2], [3]] = Except.error () :=
  ⟨((yuv_framing 2 2 [] [[1, 2, 3], [4, 5, 6, 7]]).1
      [1, 2, 3, 4, 5, 6] [7] [] rfl).1,
    (yuv_framing 2 2 [] [[1, 2], [3]]).2 (by decide)⟩

theorem nal_take4 (body : List Nat) : (startCode ++ body).take 4 = startCode := by
  have h4 : (4 : Nat) = startCode.length := rfl
  rw [h4, List.take_left]

theorem nal_no_second {body : List Nat}
    (hbody : ∀ j, ¬ occursAt startCode body j) :
    ∀ i, 1 ≤ i → ¬ occursAt startCode (startCode ++ body) i := by
  intro i hi hocc
  rcases i with _ | _ | _ | _ | n
  · omega
  · have hd : (startCode ++ body).drop 1 = 0 :: 0 :: 1 :: body := rfl
    rw [occursAt, hd] at hocc
    simp [startCode, leadsWith] at hocc
  · have hd : (startCode ++ body).drop 2 = 0 :: 1 :: body := rfl
    rw [occursAt, hd] at hocc
    simp [startCode, leadsWith] at hocc
  · have hd : (startCode ++ body).drop 3 = 1 :: body := rfl
    rw [occursAt, hd] at hocc
    simp [startCode, leadsWith] at hocc
  · have hshape : n + 1 + 1 + 1 + 1 = startCode.length + n := by
      simp [startCode]
      omega
    rw [occursAt, hshape, List.drop_append] at hocc
    exact hbody n hocc

theorem nal_body_take {buf : List Nat} {ns : Nat}
    (hf : findSub startCode buf = some ns) :
    ∀ j, ¬ occursAt startCode (buf.take ns) j := by
  intro j hocc
  rw [occursAt, List.drop_take] at hocc
  have hlw : leadsWith startCode (buf.drop j) = true := leadsWith_of_take hocc
  have hlen : startCode.length ≤ ((buf.drop j).take (ns - j)).length :=
    leadsWith_length hocc
  have hjlt : j < ns := by
    rw [List.length_take] at hlen
    simp [startCode] at hlen
    omega
  exact findSub_some_min hf j hjlt hlw

theorem nalPhase2_spec :
    ∀ (chunks : List (List Nat)) (buf nal : List Nat) (rest : List (List Nat)),
      nalPhase2 buf chunks = (some nal, rest) →
      nal.take 4 = startCode ∧ (∀ i, 1 ≤ i → ¬ occursAt startCode nal i) ∧
      ∃ consumed, chunks = consumed ++ rest := by
  intro chunks
  induction chunks with
  | nil =>
    intro buf nal rest h
    rw [nalPhase2] at h
    split at h
    next ns hf =>
      simp only [Prod.mk.injEq, Option.some.injEq] at h
      obtain ⟨rfl, rfl⟩ := h.symm.imp Eq.symm Eq.symm
      exact ⟨nal_take4 _, nal_no_second (nal_body_take hf), [], rfl⟩
    next hf =>
      by_cases hb : buf.isEmpty
      · rw [if_pos hb] at h
        simp at h
      · rw [if_neg hb] at h
        simp only [Prod.mk.injEq, Option.some.injEq] at h
        obtain ⟨rfl, rfl⟩ := h.symm.imp Eq.symm Eq.symm
        exact ⟨nal_take4 _, nal_no_second (findSub_none_occurs hf), [], rfl⟩
  | cons c cs ih =>
    intro buf nal rest h
    rw [nalPhase2] at h
    split at h
    next ns hf =>
      simp only [Prod.mk.injEq, Option.some.injEq] at h
      obtain ⟨rfl, rfl⟩ := h.symm.imp Eq.symm Eq.symm
      exact ⟨nal_take4 _, nal_no_second (nal_body_take hf), [], rfl⟩
    next hf =>
      by_cases hc : c.isEmpty
      · rw [if_pos hc] at h
        by_cases hb : buf.isEmpty
        · rw [if_pos hb] at h
          simp at h
        · rw [if_neg hb] at h
          simp only [Prod.mk.injEq, Option.some.injEq] at h
          obtain ⟨rfl, rfl⟩ := h.symm.imp Eq.symm Eq.symm
          exact ⟨nal_take4 _, nal_no_second (findSub_none_occurs hf), [c], rfl⟩
      · rw [if_neg hc] at h
        obtain ⟨h1, h2, consumed, hcons⟩ := ih (buf ++ c) nal rest h
        exact ⟨h1, h2, c :: consumed, by rw [List.cons_append, hcons]⟩

theorem nalPhase1_spec :
    ∀ (chunks : List (List Nat)) (buf nal : List Nat) (rest : List (List Nat)),
      nalPhase1 buf chunks = (some nal, rest) →
      nal.take 4 = startCode ∧ (∀ i, 1 ≤ i → ¬ occursAt startCode nal i) ∧
      ∃ consumed, chunks = consumed ++ rest := by
  intro chunks
  induction chunks with
  | nil =>
    intro buf nal rest h
    rw [nalPhase1] at h
    simp at h
  | cons c cs ih =>
    intro buf nal rest h
    rw [nalPhase1] at h
    split at h
    · simp at h
    · split at h
      next i hf =>
        obtain ⟨h1, h2, consumed, hcons⟩ := nalPhase2_spec cs _ nal rest h
        exact ⟨h1, h2, c :: consumed, by rw [List.cons_append, hcons]⟩
      next hf =>
        obtain ⟨h1, h2, consumed, hcons⟩ := ih (buf ++ c) nal rest h
        exact ⟨h1, h2, c :: consumed, by rw [List.cons_append, hcons]⟩

/-- C10: every unit returned by `read_h264_nal_unit` begins with the 4-byte
start code and contains no second occurrence of it; the function keeps no
buffer across calls — its only carried state is the position in the chunk
stream (`rest` is a suffix of the input chunks), so bytes buffered beyond the
returned unit are discarded. -/
theorem nal_unit_shape (chunks : List (List Nat)) (nal : List Nat)
    (rest : List (List Nat))
    (h : read_h264_nal_unit chunks = (some nal, rest)) :
    nal.take 4 = startCode ∧ (∀ i, 1 ≤ i → ¬ occursAt startCode nal i) ∧
    ∃ consumed, chunks = consumed ++ rest :=
  nalPhase1_spec chunks [] nal rest h

theorem nal_unit_shape_witness :
    read_h264_nal_unit [[0, 0, 0, 1, 7, 8], [0, 0, 0, 1, 9]]
      = (some [0, 0, 0, 1, 7, 8], []) ∧
    [0, 0, 0, 1, 7, 8].take 4 = startCode ∧
    ¬ occursAt startCode [0, 0, 0, 1, 7, 8] 1 :=
  ⟨rfl, (nal_unit_shape [[0, 0, 0, 1, 7, 8], [0, 0, 0, 1, 9]]
      [0, 0, 0, 1, 7, 8] [] rfl).1,
    (nal_unit_shape [[0, 0, 0, 1, 7, 8], [0, 0, 0, 1, 9]]
      [0, 0, 0, 1, 7, 8] [] rfl).2.1 1 (by omega)⟩
